import Mathlib

/-!
Verification development for the flanking-gene extraction pipeline
(`step3_s1_extract_flanking_genes_parallel.py`, `step3_s1_extract_neighbour_parallel.py`,
`kit_extract_flank_seqs.py`, `step3_s7_integrate_flanking.py`,
`step3_s7_integrate_flanking_parallel.py`).

Python strings are embedded as `List Char`; Python's `str.split(sep)`,
`in` (substring test), `str.strip()`, `int(...)`, `str.replace` and
`re.findall(r'\d+', ...)` are given explicit executable models below.
Python dicts keyed by strings are embedded as association lists with
first-insertion ordering and in-place update, matching dict iteration
order.  Fallible Python code (raising) is embedded with `Option`/`Except`.
-/

/-- Chars of a string literal (convenience for concrete inputs). -/
def cl (s : String) : List Char := s.data

/-- Model of Python `s.startswith(t)` / prefix test used by `str.split`. -/
def startsL : List Char → List Char → Bool
  | [], _ => true
  | _ :: _, [] => false
  | a :: as, b :: bs => a == b && startsL as bs

/-- Model of Python `sep in s` (substring containment). -/
def containsL (sep : List Char) : List Char → Bool
  | [] => sep.isEmpty
  | c :: cs => startsL sep (c :: cs) || containsL sep cs

/-- Fuel-driven worker for `splitOnL`; fuel bounds the scan length. -/
def splitGo (sep : List Char) : Nat → List Char → List (List Char)
  | _, [] => [[]]
  | 0, s => [s]
  | n + 1, c :: cs =>
    if startsL sep (c :: cs) then
      [] :: splitGo sep n (List.drop (sep.length - 1) cs)
    else
      match splitGo sep n cs with
      | [] => [[c]]
      | p :: ps => (c :: p) :: ps

/-- Model of Python `s.split(sep)` for a non-empty separator: leftmost,
non-overlapping occurrences; `''.split(sep) = ['']`. -/
def splitOnL (sep s : List Char) : List (List Char) :=
  if sep.isEmpty then [s] else splitGo sep s.length s

/-- Model of Python `s.replace(old, '')` (remove every occurrence). -/
def removeAllL (old s : List Char) : List Char :=
  (splitOnL old s).foldr (· ++ ·) []

/-- Model of Python `str.strip()` (drop surrounding whitespace). -/
def stripL (s : List Char) : List Char :=
  ((s.dropWhile Char.isWhitespace).reverse.dropWhile Char.isWhitespace).reverse

/-- Decimal value of a digit run. -/
def natOfDigits (s : List Char) : Nat :=
  s.foldl (fun n c => n * 10 + (c.toNat - 48)) 0

/-- Worker for `digitRuns`: `acc` is the reversed current run. -/
def digitRunsGo : List Char → List Char → List (List Char)
  | [], acc => if acc.isEmpty then [] else [acc.reverse]
  | c :: cs, acc =>
    if c.isDigit then digitRunsGo cs (c :: acc)
    else (if acc.isEmpty then [] else [acc.reverse]) ++ digitRunsGo cs []

/-- Model of `re.findall(r'\d+', s)`: maximal digit runs, left to right. -/
def digitRuns (s : List Char) : List (List Char) :=
  digitRunsGo s []

/-- Model of Python `int(str)`: strip whitespace, optional sign, digits. -/
def pyIntOfChars (s : List Char) : Option Int :=
  let t := stripL s
  match t with
  | '-' :: rest =>
    if rest ≠ [] ∧ rest.all Char.isDigit then some (-(natOfDigits rest : Int)) else none
  | '+' :: rest =>
    if rest ≠ [] ∧ rest.all Char.isDigit then some (natOfDigits rest : Int) else none
  | _ =>
    if t ≠ [] ∧ t.all Char.isDigit then some (natOfDigits t : Int) else none

/-- Worker for decimal rendering (fuel-driven, builds digits right to left). -/
def natToCharsGo : Nat → Nat → List Char → List Char
  | 0, _, acc => acc
  | fuel + 1, n, acc =>
    let d := Char.ofNat (48 + n % 10)
    if n < 10 then d :: acc else natToCharsGo fuel (n / 10) (d :: acc)

/-- Decimal rendering of a natural number. -/
def natToChars (n : Nat) : List Char :=
  natToCharsGo (n + 1) n []

/-- Decimal rendering of an integer (used to model `json.dumps`). -/
def intToChars : Int → List Char
  | Int.ofNat n => natToChars n
  | Int.negSucc n => '-' :: natToChars (n + 1)

/-- Association-list read, modelling Python `dict.get`. -/
def dictGet {V : Type} (d : List (List Char × V)) (k : List Char) : Option V :=
  (d.find? (fun p => p.1 == k)).map (·.2)

/-- Association-list write, modelling Python `dict[k] = v`: updates in
place if the key is present, else appends (insertion order preserved). -/
def dictInsert {V : Type} : List (List Char × V) → List Char → V → List (List Char × V)
  | [], k, v => [(k, v)]
  | (k', v') :: rest, k, v =>
    if k' == k then (k, v) :: rest else (k', v') :: dictInsert rest k v

/-- A FASTA sequence record as produced by `SeqIO.parse` (id, description,
residue string). -/
structure SeqRec where
  rid : List Char
  rdesc : List Char
  rseq : List Char
deriving DecidableEq, Repr

/-- The value shape stored in `faa_seg_info` dicts:
`(start, end, strand, record)`. -/
abbrev SegInfo := Int × Int × Int × SeqRec

/-- One `(record.id, start, end, strand)` match tuple. -/
abbrev FlankTuple := List Char × Int × Int × Int

/-- `extract_flanking_segments` (step3_s1_extract_flanking_genes_parallel.py
lines 153-172; identical body in step3_s1_extract_neighbour_parallel.py
lines 108-124): walk the resolver dict in iteration order and keep every
record overlapping the window
`[target_start - upstream, target_end + downstream]`. -/
def extract_flanking_segments (faa_seg_info : List (List Char × SegInfo))
    (_target_name : List Char) (target_start target_end : Int)
    (upstream downstream : Int) : List FlankTuple × List SeqRec :=
  let upstream_start := target_start - upstream
  let downstream_end := target_end + downstream
  let rec go : List (List Char × SegInfo) → List FlankTuple × List SeqRec
    | [] => ([], [])
    | (_, (segment_start, segment_end, segment_strand, record)) :: rest =>
      let (is, rs) := go rest
      if segment_end ≥ upstream_start ∧ segment_start ≤ downstream_end then
        ((record.rid, segment_start, segment_end, segment_strand) :: is, record :: rs)
      else
        (is, rs)
  go faa_seg_info

/-- The worker of `extract_flanking_segments` filters the resolver map by
the window test and projects each kept entry. -/
theorem extract_flanking_go_eq (ws we : Int) (l : List (List Char × SegInfo)) :
    extract_flanking_segments.go ws we l =
      (((l.filter fun p => decide (p.2.2.1 ≥ ws) && decide (p.2.1 ≤ we)).map
          fun p => (p.2.2.2.2.rid, p.2.1, p.2.2.1, p.2.2.2.1)),
       ((l.filter fun p => decide (p.2.2.1 ≥ ws) && decide (p.2.1 ≤ we)).map
          fun p => p.2.2.2.2)) := by
  induction l with
  | nil => simp [extract_flanking_segments.go]
  | cons h t ih =>
    obtain ⟨k, s, e, st, r⟩ := h
    simp only [extract_flanking_segments.go, ih, List.filter_cons]
    by_cases h1 : e ≥ ws
    · by_cases h2 : s ≤ we
      · simp [h1, h2]
      · simp [h1, h2]
    · simp [h1]

/-- C1: WindowMatcher returns exactly the records overlapping the closed
window: the match list is the in-order filter of the resolver map by
`end ≥ ws ∧ start ≤ we` (projected to id/start/end/strand tuples, with the
kept sequence records filtered the same way), hence every returned match
satisfies both inequalities and no record with `end < ws` or `start > we`
is ever returned. -/
theorem extract_flanking_segments_window_exact
    (faa_seg_info : List (List Char × SegInfo)) (tname : List Char)
    (target_start target_end upstream downstream : Int) :
    (extract_flanking_segments faa_seg_info tname target_start target_end
        upstream downstream).1 =
      (faa_seg_info.filter (fun p =>
          decide (p.2.2.1 ≥ target_start - upstream) &&
          decide (p.2.1 ≤ target_end + downstream))).map
        (fun p => (p.2.2.2.2.rid, p.2.1, p.2.2.1, p.2.2.2.1)) ∧
    (extract_flanking_segments faa_seg_info tname target_start target_end
        upstream downstream).2 =
      (faa_seg_info.filter (fun p =>
          decide (p.2.2.1 ≥ target_start - upstream) &&
          decide (p.2.1 ≤ target_end + downstream))).map
        (fun p => p.2.2.2.2) ∧
    ∀ m ∈ (extract_flanking_segments faa_seg_info tname target_start target_end
        upstream downstream).1,
      m.2.2.1 ≥ target_start - upstream ∧ m.2.1 ≤ target_end + downstream := by
  have hgo := extract_flanking_go_eq (target_start - upstream)
    (target_end + downstream) faa_seg_info
  unfold extract_flanking_segments
  refine ⟨by rw [hgo], by rw [hgo], ?_⟩
  rw [hgo]
  intro m hm
  simp only [List.mem_map, List.mem_filter, Bool.and_eq_true, decide_eq_true_eq] at hm
  obtain ⟨p, ⟨_, h1, h2⟩, hp⟩ := hm
  subst hp
  exact ⟨h1, h2⟩

/-- Keep the first occurrence of each element (pandas `unique` order). -/
def dedupFirstGo {α : Type} [DecidableEq α] (seen : List α) : List α → List α
  | [] => []
  | a :: as => if a ∈ seen then dedupFirstGo seen as else a :: dedupFirstGo (a :: seen) as

/-- `pandas.unique`: distinct values in first-occurrence order. -/
def dedupFirst {α : Type} [DecidableEq α] (l : List α) : List α :=
  dedupFirstGo [] l

/-- Genome id for Prodigal-style sequence ids:
`'_'.join(seqid.split('_')[:-1])`. -/
def genomeOfProdigalId (s : List Char) : List Char :=
  List.intercalate (cl "_") ((splitOnL (cl "_") s).dropLast)

/-- Inner helper of `process_prodigal_faa`
(step3_s1_extract_flanking_genes_parallel.py lines 96-102): split the
description on `#`; fewer than 4 fields raises `ValueError`; fields 1..3
are parsed with `int(...)` (which may itself raise). -/
def extract_position_and_strand (record : SeqRec) : Except (List Char) SegInfo :=
  let parts := splitOnL (cl "#") record.rdesc
  if parts.length < 4 then
    Except.error (cl "Description format error: " ++ record.rdesc)
  else
    match pyIntOfChars (parts.getD 1 []), pyIntOfChars (parts.getD 2 []),
        pyIntOfChars (parts.getD 3 []) with
    | some s, some e, some st => Except.ok (s, e, st, record)
    | _, _, _ => Except.error (cl "invalid literal for int() with base 10")

/-- `process_prodigal_faa` (lines 95-112): keep records whose derived
genome id equals the target's; a parse failure on any kept record raises
out of the whole resolution (`Except.error`). -/
def process_prodigal_faa (records : List SeqRec) (target_seqid : List Char) :
    Except (List Char) (List (List Char × SegInfo)) :=
  let target_genome := genomeOfProdigalId target_seqid
  let rec go : List SeqRec → List (List Char × SegInfo) →
      Except (List Char) (List (List Char × SegInfo))
    | [], acc => Except.ok acc
    | r :: rs, acc =>
      if genomeOfProdigalId r.rid == target_genome then
        match extract_position_and_strand r with
        | Except.error e => Except.error e
        | Except.ok v => go rs (dictInsert acc r.rid v)
      else go rs acc
  go records []

/-- The text between `[location=` (last occurrence) and the next `]`:
`description.split('[location=')[-1].split(']')[0]`. -/
def locationField (desc : List Char) : List Char :=
  (splitOnL (cl "]") ((splitOnL (cl "[location=") desc).getLastD [])).headD []

/-- First comma-separated piece of the location field (the trailing
`.split(',')[0]` of the source chain). -/
def locationFirstPiece (desc : List Char) : List Char :=
  (splitOnL (cl ",") (locationField desc)).headD []

/-- Inner helper of `process_translated_CDS_faa` (lines 120-128): strand is
−1 iff `complement` occurs in the description; the integers of the first
comma piece of the location field are sorted (`np.sort`) and the first and
last taken; an empty integer list raises (`none`). -/
def extract_position_and_strand2 (record : SeqRec) : Option SegInfo :=
  let strand : Int := if containsL (cl "complement") record.rdesc then -1 else 1
  let positions := (digitRuns (locationFirstPiece record.rdesc)).map natOfDigits
  let sorted_positions := List.insertionSort (· ≤ ·) positions
  match sorted_positions.head?, sorted_positions.getLast? with
  | some s, some e => some ((s : Int), (e : Int), strand, record)
  | _, _ => none

/-- Genome id for NCBI translated-CDS ids:
`seqid.replace('lcl|', '').split('_prot_')[0]`. -/
def genomeOfNcbiId (s : List Char) : List Char :=
  (splitOnL (cl "_prot_") (removeAllL (cl "lcl|") s)).headD []

/-- `process_translated_CDS_faa` (lines 115-137): keep records whose
derived genome id equals the target's; an empty position list raises. -/
def process_translated_CDS_faa (records : List SeqRec) (target_seqid : List Char) :
    Except (List Char) (List (List Char × SegInfo)) :=
  let target_genome := genomeOfNcbiId target_seqid
  let rec go : List SeqRec → List (List Char × SegInfo) →
      Except (List Char) (List (List Char × SegInfo))
    | [], acc => Except.ok acc
    | r :: rs, acc =>
      if genomeOfNcbiId r.rid == target_genome then
        match extract_position_and_strand2 r with
        | none => Except.error (cl "index 0 is out of bounds")
        | some v => go rs (dictInsert acc r.rid v)
      else go rs acc
  go records []

/-- One row of the paired GFF table as parsed by
`pd.read_table(..., header=None, comment='#')` and column-selected to
(genome, start, end, strand, description). -/
structure GffRow where
  genome : List Char
  gstart : Int
  gend : Int
  gstrand : List Char
  gdesc : List Char
deriving DecidableEq, Repr

/-- The on-disk world a row task sees: path existence, FASTA records of a
path, and the parsed paired GFF table of a path. -/
structure FS where
  ex : List Char → Bool
  fasta : List Char → List SeqRec
  gff : List Char → List GffRow

/-- First match of `locus_tag=([^;]+)` (`Series.str.extract`): at each
occurrence of `locus_tag=` the group takes the following non-`;` run; an
empty run at one occurrence lets the scan continue at the next. -/
def extractLocusTag (desc : List Char) : Option (List Char) :=
  match splitOnL (cl "locus_tag=") desc with
  | [] => none
  | _ :: pieces =>
    pieces.findSome? fun rest =>
      let tag := rest.takeWhile (· ≠ ';')
      if tag.isEmpty then none else some tag

/-- Replace a suffix when present. -/
def replaceSuffixL (suf rep s : List Char) : Option (List Char) :=
  if suf.isSuffixOf s then some (s.take (s.length - suf.length) ++ rep) else none

/-- Replace the first listed suffix that matches (the listed suffixes are
mutually exclusive, so order is immaterial); no match leaves the path
unchanged as `re.sub` does. -/
def replaceFirstSuffix : List (List Char) → List Char → List Char → List Char
  | [], _, s => s
  | suf :: rest, rep, s =>
    match replaceSuffixL suf rep s with
    | some p => p
    | none => replaceFirstSuffix rest rep s

/-- Derivation of the paired GFF path (lines 64-68):
`re.sub(r'\.(fa|faa|fasta)\.gz$', '.gff', p)` on `.gz` paths, else
`re.sub(r'\.(fa|faa|fasta)$', '.gff', p)`. -/
def deriveGffPath (faa_path : List Char) : List Char :=
  if (cl ".gz").isSuffixOf faa_path then
    replaceFirstSuffix [cl ".fa.gz", cl ".faa.gz", cl ".fasta.gz"] (cl ".gff") faa_path
  else
    replaceFirstSuffix [cl ".fa", cl ".faa", cl ".fasta"] (cl ".gff") faa_path

/-- `process_gff_faa` (lines 60-92): raise `FileNotFoundError` when the
derived GFF path does not exist; otherwise extract locus tags, find the
target's genome(s), keep annotation rows of those genomes, and emit for
each sequence record matching a kept locus tag the first matching row's
start/end and strand (`'+' → 1`, else `−1`). -/
def process_gff_faa (fs : FS) (faa_path target_seqid : List Char) :
    Except (List Char) (List (List Char × SegInfo)) :=
  let gff_path := deriveGffPath faa_path
  if fs.ex gff_path = false then
    Except.error (cl "GFF not found for " ++ faa_path ++ cl ": " ++ gff_path)
  else
    let gff_df := (fs.gff gff_path).map fun row => (row, extractLocusTag row.gdesc)
    let target_genome :=
      dedupFirst ((gff_df.filter fun p => p.2 == some target_seqid).map fun p => p.1.genome)
    let kept := gff_df.filter fun p => target_genome.contains p.1.genome
    let rec go : List SeqRec → List (List Char × SegInfo) →
        Except (List Char) (List (List Char × SegInfo))
      | [], acc => Except.ok acc
      | record :: rs, acc =>
        match (kept.filter fun p => p.2 == some record.rid).head? with
        | some p =>
          go rs (dictInsert acc record.rid
            (p.1.gstart, p.1.gend, (if p.1.gstrand == cl "+" then 1 else -1), record))
        | none => go rs acc
    go (fs.fasta faa_path) []

/-- The three coordinate-extraction strategies. -/
inductive Strategy
  | gffLinked
  | ncbiTranslatedCds
  | prodigalHeader
deriving DecidableEq, Repr

/-- The dispatch conditions of `get_faa_seg_info`
(step3_s1_extract_flanking_genes_parallel.py lines 140-146), factored as a
pure selector over the archive path and source tag. -/
def chooseStrategy (faa_file source : List Char) : Strategy :=
  if containsL (cl "IMGM_metagenome(no more use)") source then .gffLinked
  else if containsL (cl "translated_cds") faa_file && containsL (cl "NCBI") source then
    .ncbiTranslatedCds
  else .prodigalHeader

/-- Same selector for the neighbour variant
(step3_s1_extract_neighbour_parallel.py lines 10-17), whose GFF-linked tag
is the plain `IMGM_metagenome`. -/
def chooseStrategyNb (faa_file source : List Char) : Strategy :=
  if containsL (cl "IMGM_metagenome") source then .gffLinked
  else if containsL (cl "translated_cds") faa_file && containsL (cl "NCBI") source then
    .ncbiTranslatedCds
  else .prodigalHeader

/-- `get_faa_seg_info` (lines 140-146): sequential substring dispatch to
the three resolvers. -/
def get_faa_seg_info (fs : FS) (faa_file target_seqid source : List Char) :
    Except (List Char) (List (List Char × SegInfo)) :=
  if containsL (cl "IMGM_metagenome(no more use)") source then
    process_gff_faa fs faa_file target_seqid
  else if containsL (cl "translated_cds") faa_file && containsL (cl "NCBI") source then
    process_translated_CDS_faa (fs.fasta faa_file) target_seqid
  else
    process_prodigal_faa (fs.fasta faa_file) target_seqid

/-- C6: strategy selection is a pure function of the archive path and the
source tag, and follows the stated policy in both scripts: the GFF-linked
tag wins, else a translated-CDS archive of an NCBI source picks
NcbiTranslatedCds, else ProdigalHeader; and `get_faa_seg_info` dispatches
exactly according to that selector. -/
theorem get_faa_seg_info_strategy_policy (fs : FS)
    (faa_file target_seqid source : List Char) :
    (get_faa_seg_info fs faa_file target_seqid source =
      match chooseStrategy faa_file source with
      | .gffLinked => process_gff_faa fs faa_file target_seqid
      | .ncbiTranslatedCds => process_translated_CDS_faa (fs.fasta faa_file) target_seqid
      | .prodigalHeader => process_prodigal_faa (fs.fasta faa_file) target_seqid) ∧
    (chooseStrategy faa_file source = .gffLinked ↔
      containsL (cl "IMGM_metagenome(no more use)") source = true) ∧
    (chooseStrategy faa_file source = .ncbiTranslatedCds ↔
      containsL (cl "IMGM_metagenome(no more use)") source = false ∧
      containsL (cl "translated_cds") faa_file = true ∧
      containsL (cl "NCBI") source = true) ∧
    (chooseStrategy faa_file source = .prodigalHeader ↔
      containsL (cl "IMGM_metagenome(no more use)") source = false ∧
      ¬(containsL (cl "translated_cds") faa_file = true ∧
        containsL (cl "NCBI") source = true)) ∧
    (chooseStrategyNb faa_file source = .gffLinked ↔
      containsL (cl "IMGM_metagenome") source = true) ∧
    (chooseStrategyNb faa_file source = .ncbiTranslatedCds ↔
      containsL (cl "IMGM_metagenome") source = false ∧
      containsL (cl "translated_cds") faa_file = true ∧
      containsL (cl "NCBI") source = true) ∧
    (chooseStrategyNb faa_file source = .prodigalHeader ↔
      containsL (cl "IMGM_metagenome") source = false ∧
      ¬(containsL (cl "translated_cds") faa_file = true ∧
        containsL (cl "NCBI") source = true)) := by
  unfold get_faa_seg_info chooseStrategy chooseStrategyNb
  by_cases h1 : containsL (cl "IMGM_metagenome(no more use)") source = true <;>
  by_cases h1' : containsL (cl "IMGM_metagenome") source = true <;>
  by_cases h2 : containsL (cl "translated_cds") faa_file = true <;>
  by_cases h3 : containsL (cl "NCBI") source = true <;>
  simp_all

/-- `json.dumps` of a plain string (record ids need no escaping). -/
def jsonStr (s : List Char) : List Char :=
  '"' :: s ++ ['"']

/-- `json.dumps` of one `(record.id, start, end, strand)` tuple (a JSON
array). -/
def jsonTuple (t : FlankTuple) : List Char :=
  '[' :: (jsonStr t.1 ++ cl ", " ++ intToChars t.2.1 ++ cl ", " ++
    intToChars t.2.2.1 ++ cl ", " ++ intToChars t.2.2.2) ++ [']']

/-- `json.dumps` of the whole match list; the empty list renders as `[]`. -/
def jsonDumpsFlank (l : List FlankTuple) : List Char :=
  '[' :: List.intercalate (cl ", ") (l.map jsonTuple) ++ [']']

/-- `os.path.join` for two components. -/
def pathJoin (root name : List Char) : List Char :=
  if startsL (cl "/") name then name
  else if root.isEmpty then name
  else if root.getLast? == some '/' then root ++ name
  else root ++ '/' :: name

/-- `_possible_faa_paths` (lines 32-42): `.faa/.fasta/.fa` and their `.gz`
variants, in that order. -/
def _possible_faa_paths (root_dir base : List Char) : List (List Char) :=
  [cl ".faa", cl ".fasta", cl ".fa"].foldr
    (fun ext acc =>
      let p := pathJoin root_dir (base ++ ext)
      p :: (p ++ cl ".gz") :: acc) []

/-- `_resolve_faa_path` (lines 45-53): first existing candidate wins. -/
def _resolve_faa_path (fs : FS) (root_dir base : List Char) : Option (List Char) :=
  (_possible_faa_paths root_dir base).find? fs.ex

/-- One input row of the summary table (columns used by the row task). -/
structure Row where
  target_name : List Char
  target_file : List Char
  source : List Char
  prot_start : Int
  prot_end : Int
deriving Repr

/-- `_process_single_row` (lines 190-222), modelled as the per-row value it
sends back (the per-target FASTA write is a file side effect carrying no
row data and is elided): unknown source or missing archive return `'[]'`;
an exception inside resolution returns `'ERROR:' + message`; otherwise the
JSON dump of the match tuples. -/
def _process_single_row (fs : FS) (row : Row)
    (faa_roots : List (List Char × List Char)) (upstream downstream : Int) :
    List Char :=
  let fasta_base := (splitOnL (cl ".domtblout") row.target_file).headD []
  match dictGet faa_roots row.source with
  | none => cl "[]"
  | some root_faa_dir =>
    match _resolve_faa_path fs root_faa_dir fasta_base with
    | none => cl "[]"
    | some faa_file =>
      let target_start := min row.prot_start row.prot_end
      let target_end := max row.prot_start row.prot_end
      match get_faa_seg_info fs faa_file row.target_name row.source with
      | Except.error e => cl "ERROR:" ++ e
      | Except.ok faa_seg_info =>
        jsonDumpsFlank (extract_flanking_segments faa_seg_info row.target_name
          target_start target_end upstream downstream).1

/-- `process_dataframe_parallel` (lines 225-246), modelled by its observable
outcome: results come back in any completion order but are written into the
`flanking_segments` column by row index, so the column is the in-order,
per-row image of `_process_single_row`; a result starting with `ERROR:` is
replaced by `'[]'` and a warning `(index, message)` is emitted. -/
def process_dataframe (fs : FS) (rows : List Row)
    (faa_roots : List (List Char × List Char)) (upstream downstream : Int) :
    List (List Char) × List (Nat × List Char) :=
  let res := rows.map fun r => _process_single_row fs r faa_roots upstream downstream
  (res.map fun s => if startsL (cl "ERROR:") s then cl "[]" else s,
   res.enum.filterMap fun p => if startsL (cl "ERROR:") p.2 then some p else none)

/-- A prefix test succeeds on its own extension. -/
theorem startsL_append (p s : List Char) : startsL p (p ++ s) = true := by
  induction p with
  | nil => simp [startsL]
  | cons a as ih => simp [startsL, ih]

/-- Positioned membership in `enumFrom`. -/
theorem get?_mem_enumFrom {α : Type} (l : List α) :
    ∀ (n i : Nat) (x : α), l.get? i = some x → (n + i, x) ∈ l.enumFrom n := by
  induction l with
  | nil => intro n i x h; simp [List.get?] at h
  | cons a t ih =>
    intro n i x h
    cases i with
    | zero =>
      simp only [List.get?] at h
      cases h
      simp [List.enumFrom]
    | succ j =>
      simp only [List.get?] at h
      have := ih (n + 1) j x h
      simp only [List.enumFrom, List.mem_cons]
      right
      have harith : n + (j + 1) = n + 1 + j := by omega
      rw [harith]
      exact this

/-- `get?` commutes with `map`. -/
theorem mapGet? {α β : Type} (f : α → β) (l : List α) (i : Nat) :
    (l.map f).get? i = (l.get? i).map f := by
  induction l generalizing i with
  | nil => simp
  | cons a t ih => cases i <;> simp [List.get?, ih]

/-- A Prodigal header with fewer than 4 `#`-fields makes the record parse
raise. -/
theorem extract_position_and_strand_short (r : SeqRec)
    (h : (splitOnL (cl "#") r.rdesc).length < 4) :
    extract_position_and_strand r =
      Except.error (cl "Description format error: " ++ r.rdesc) := by
  unfold extract_position_and_strand
  rw [if_pos h]

/-- If any genome-scoped record of the scanned archive has a malformed
header, the whole Prodigal resolution errors out, whatever has been
accumulated so far. -/
theorem prodigal_go_error (tg : List Char) (recs : List SeqRec) :
    ∀ acc, (∃ r ∈ recs, genomeOfProdigalId r.rid = tg ∧
        (splitOnL (cl "#") r.rdesc).length < 4) →
      ∃ e, process_prodigal_faa.go tg recs acc = Except.error e := by
  induction recs with
  | nil => intro acc h; simp at h
  | cons r rs ih =>
    intro acc h
    obtain ⟨b, hb, hbg, hbl⟩ := h
    simp only [process_prodigal_faa.go]
    by_cases hg : (genomeOfProdigalId r.rid == tg) = true
    · simp only [hg, if_true]
      cases hre : extract_position_and_strand r with
      | error e => exact ⟨e, rfl⟩
      | ok v =>
        rcases List.mem_cons.mp hb with hrb | htail
        · subst hrb
          rw [extract_position_and_strand_short b hbl] at hre
          cases hre
        · exact ih (dictInsert acc r.rid v) ⟨b, htail, hbg, hbl⟩
    · simp only [hg, if_false]
      rcases List.mem_cons.mp hb with hrb | htail
      · subst hrb
        rw [hbg] at hg
        simp at hg
      · exact ih acc ⟨b, htail, hbg, hbl⟩

/-- C5 (amended): a ProdigalHeader record whose `#`-delimited description
has fewer than 4 fields does NOT merely drop that record — the raised
`ValueError` aborts the whole row's resolution; the row task reports
`ERROR:...` and the driver records `'[]'` (an empty match set) for that
row, leaving sibling rows untouched. -/
theorem prodigal_malformed_header_fails_whole_row
    (fs : FS) (row : Row) (faa_roots : List (List Char × List Char))
    (upstream downstream : Int) (root faa_file : List Char)
    (hset : dictGet faa_roots row.source = some root)
    (hres : _resolve_faa_path fs root
      ((splitOnL (cl ".domtblout") row.target_file).headD []) = some faa_file)
    (hgff : containsL (cl "IMGM_metagenome(no more use)") row.source = false)
    (htrn : (containsL (cl "translated_cds") faa_file &&
      containsL (cl "NCBI") row.source) = false)
    (hbad : ∃ r ∈ fs.fasta faa_file,
      genomeOfProdigalId r.rid = genomeOfProdigalId row.target_name ∧
      (splitOnL (cl "#") r.rdesc).length < 4) :
    (∃ m, _process_single_row fs row faa_roots upstream downstream =
      cl "ERROR:" ++ m) ∧
    ∀ (rows : List Row) (i : Nat), rows.get? i = some row →
      (process_dataframe fs rows faa_roots upstream downstream).1.get? i =
        some (cl "[]") := by
  obtain ⟨e, he⟩ := prodigal_go_error (genomeOfProdigalId row.target_name)
    (fs.fasta faa_file) [] hbad
  have hmain : _process_single_row fs row faa_roots upstream downstream =
      cl "ERROR:" ++ e := by
    unfold _process_single_row
    simp only [hset, hres]
    unfold get_faa_seg_info
    simp only [hgff, Bool.false_eq_true, if_false, htrn]
    unfold process_prodigal_faa
    rw [he]
  refine ⟨⟨e, hmain⟩, ?_⟩
  intro rows i hrow
  unfold process_dataframe
  simp only [mapGet?, hrow, Option.map_some']
  rw [hmain, startsL_append]
  simp

/-- C5 (counterexample to the claim as stated): in an archive holding one
well-formed and one malformed genome-scoped record, the resolver does not
return the well-formed record with the malformed one dropped — it errors
out entirely; alone, the well-formed record resolves fine. -/
theorem prodigal_malformed_header_counterexample :
    process_prodigal_faa
        [⟨cl "g_1", cl "g_1 # 100 # 250 # 1 # ID=1", cl "MA"⟩,
         ⟨cl "g_2", cl "broken header", cl "MV"⟩] (cl "g_9") =
      Except.error (cl "Description format error: broken header") ∧
    process_prodigal_faa [⟨cl "g_1", cl "g_1 # 100 # 250 # 1 # ID=1", cl "MA"⟩]
        (cl "g_9") =
      Except.ok [(cl "g_1", (100, 250, 1,
        ⟨cl "g_1", cl "g_1 # 100 # 250 # 1 # ID=1", cl "MA"⟩))] := by
  constructor <;> rfl

/-- C8 (amended): the result table always has one row per input row, each
row's `flanking_segments` value is a function of that row alone (so no
failure propagates across rows); an unknown source or a missing sequence
archive records `'[]'` for that row silently, while a missing paired GFF
table of a GFF-linked source records `'[]'` AND emits a warning for that
row index. -/
theorem process_dataframe_missing_artifact_rows
    (fs : FS) (rows : List Row) (faa_roots : List (List Char × List Char))
    (upstream downstream : Int) :
    ((process_dataframe fs rows faa_roots upstream downstream).1.length =
      rows.length) ∧
    (∀ i row, rows.get? i = some row →
      (process_dataframe fs rows faa_roots upstream downstream).1.get? i =
        some (if startsL (cl "ERROR:")
            (_process_single_row fs row faa_roots upstream downstream)
          then cl "[]"
          else _process_single_row fs row faa_roots upstream downstream)) ∧
    (∀ i row, rows.get? i = some row →
      dictGet faa_roots row.source = none →
      (process_dataframe fs rows faa_roots upstream downstream).1.get? i =
        some (cl "[]")) ∧
    (∀ i row root, rows.get? i = some row →
      dictGet faa_roots row.source = some root →
      _resolve_faa_path fs root
        ((splitOnL (cl ".domtblout") row.target_file).headD []) = none →
      (process_dataframe fs rows faa_roots upstream downstream).1.get? i =
        some (cl "[]")) ∧
    (∀ i row root faa_file, rows.get? i = some row →
      dictGet faa_roots row.source = some root →
      _resolve_faa_path fs root
        ((splitOnL (cl ".domtblout") row.target_file).headD []) = some faa_file →
      containsL (cl "IMGM_metagenome(no more use)") row.source = true →
      fs.ex (deriveGffPath faa_file) = false →
      (process_dataframe fs rows faa_roots upstream downstream).1.get? i =
        some (cl "[]") ∧
      ∃ m, (i, m) ∈ (process_dataframe fs rows faa_roots upstream downstream).2 ∧
        startsL (cl "ERROR:") m = true) := by
  have hcol : ∀ i row, rows.get? i = some row →
      (process_dataframe fs rows faa_roots upstream downstream).1.get? i =
        some (if startsL (cl "ERROR:")
            (_process_single_row fs row faa_roots upstream downstream)
          then cl "[]"
          else _process_single_row fs row faa_roots upstream downstream) := by
    intro i row hrow
    unfold process_dataframe
    simp only [mapGet?, hrow, Option.map_some']
  refine ⟨?_, hcol, ?_, ?_, ?_⟩
  · unfold process_dataframe
    simp
  · intro i row hrow hsrc
    rw [hcol i row hrow]
    have hv : _process_single_row fs row faa_roots upstream downstream =
        cl "[]" := by
      unfold _process_single_row
      simp only [hsrc]
    rw [hv]
    rfl
  · intro i row root hrow hsrc hres
    rw [hcol i row hrow]
    have hv : _process_single_row fs row faa_roots upstream downstream =
        cl "[]" := by
      unfold _process_single_row
      simp only [hsrc, hres]
    rw [hv]
    rfl
  · intro i row root faa_file hrow hsrc hres htag hex
    have hv : _process_single_row fs row faa_roots upstream downstream =
        cl "ERROR:" ++ (cl "GFF not found for " ++ faa_file ++ cl ": " ++
          deriveGffPath faa_file) := by
      unfold _process_single_row
      simp only [hsrc, hres]
      unfold get_faa_seg_info
      simp only [htag, if_true]
      unfold process_gff_faa
      simp [hex]
    constructor
    · rw [hcol i row hrow, hv, startsL_append]
      simp
    · refine ⟨cl "ERROR:" ++ (cl "GFF not found for " ++ faa_file ++ cl ": " ++
        deriveGffPath faa_file), ?_, startsL_append _ _⟩
      unfold process_dataframe
      simp only [List.enum]
      rw [List.mem_filterMap]
      refine ⟨(i, cl "ERROR:" ++ (cl "GFF not found for " ++ faa_file ++
        cl ": " ++ deriveGffPath faa_file)), ?_, ?_⟩
      · have hget : (rows.map fun r =>
            _process_single_row fs r faa_roots upstream downstream).get? i =
            some (cl "ERROR:" ++ (cl "GFF not found for " ++ faa_file ++
              cl ": " ++ deriveGffPath faa_file)) := by
          rw [mapGet?, hrow, Option.map_some', hv]
        have := get?_mem_enumFrom _ 0 i _ hget
        simpa using this
      · simp [startsL_append]

/-- C8 (counterexample to the claim as stated): a row whose sequence
archive is absent on disk records `'[]'` and the run continues, but no
warning is logged for it (the warning list is empty), contrary to the
claim's "logs/warns". -/
theorem process_dataframe_missing_archive_silent :
    process_dataframe
        ⟨fun _ => false, fun _ => [], fun _ => []⟩
        [⟨cl "t1", cl "f1.faa.domtblout", cl "phagescope", 100, 200⟩]
        [(cl "phagescope", cl "/work/data/phage/phagescope_all_prodigal/")]
        10000 10000 =
      ([cl "[]"], []) := by
  rfl

/-- The head of a `≤`-sorted list is a lower bound. -/
theorem sorted_head?_min {l : List Nat} (hs : List.Sorted (· ≤ ·) l) {a : Nat}
    (h : l.head? = some a) : ∀ b ∈ l, a ≤ b := by
  cases l with
  | nil => cases h
  | cons x t =>
    cases h
    intro b hb
    rcases List.mem_cons.mp hb with hb | hb
    · exact hb ▸ le_refl _
    · exact List.rel_of_sorted_cons hs b hb

/-- `getLast?` yields a member. -/
theorem mem_of_getLast?Own {α : Type} {l : List α} {a : α}
    (h : l.getLast? = some a) : a ∈ l := by
  obtain ⟨hne, heq⟩ := List.mem_getLast?_eq_getLast (Option.mem_def.mpr h)
  exact heq ▸ List.getLast_mem hne

/-- The last element of a `≤`-sorted list is an upper bound. -/
theorem sorted_getLast?_max {l : List Nat} (hs : List.Sorted (· ≤ ·) l) {a : Nat}
    (h : l.getLast? = some a) : ∀ b ∈ l, b ≤ a := by
  induction l with
  | nil => cases h
  | cons x t ih =>
    cases t with
    | nil =>
      simp only [List.getLast?_singleton, Option.some.injEq] at h
      intro b hb
      simp only [List.mem_singleton] at hb
      omega
    | cons y u =>
      rw [List.getLast?_cons_cons] at h
      intro b hb
      rcases List.mem_cons.mp hb with hb | hb
      · subst hb
        exact le_trans (List.rel_of_sorted_cons hs a (mem_of_getLast?Own h))
          (le_refl a)
      · exact ih hs.of_cons h b hb

/-- Splitting at a separator that does not occur returns the whole string. -/
theorem splitGo_no_occ (sep : List Char) :
    ∀ (n : Nat) (s : List Char), containsL sep s = false → splitGo sep n s = [s] := by
  intro n
  induction n with
  | zero =>
    intro s _
    cases s <;> rfl
  | succ n ih =>
    intro s h
    cases s with
    | nil => rfl
    | cons c cs =>
      simp only [containsL, Bool.or_eq_false_iff] at h
      simp only [splitGo, h.1, Bool.false_eq_true, if_false]
      rw [ih cs h.2]

/-- `s.split(sep) = [s]` when the (non-empty) separator does not occur. -/
theorem splitOnL_no_occ {sep s : List Char} (hne : sep ≠ [])
    (h : containsL sep s = false) : splitOnL sep s = [s] := by
  unfold splitOnL
  rw [if_neg (by simp [List.isEmpty_iff, hne]), splitGo_no_occ sep s.length s h]

/-- The claim's reading of the location bounds: minimum and maximum over
ALL integers of the `[location=...]` field (outer bounds of a compound
location). -/
def specStartEnd (desc : List Char) : Option (Int × Int) :=
  let nums := (digitRuns (locationField desc)).map natOfDigits
  let sorted := List.insertionSort (· ≤ ·) nums
  match sorted.head?, sorted.getLast? with
  | some s, some e => some ((s : Int), (e : Int))
  | _, _ => none

/-- C3 (amended): whenever the NcbiTranslatedCds extractor succeeds, the
emitted strand is −1 exactly when `complement` occurs in the description,
and the emitted start/end are the minimum and maximum of the integers of
the FIRST comma-separated piece of the `[location=...]` field; when the
location field has no comma (a single range) these coincide with the
claim's outer bounds over the whole field. -/
theorem extract_position_and_strand2_first_piece_bounds
    (r r2 : SeqRec) (s e st : Int)
    (h : extract_position_and_strand2 r = some (s, e, st, r2)) :
    (st = if containsL (cl "complement") r.rdesc then -1 else 1) ∧
    ((∃ a ∈ (digitRuns (locationFirstPiece r.rdesc)).map natOfDigits,
        (a : Int) = s) ∧
     (∃ a ∈ (digitRuns (locationFirstPiece r.rdesc)).map natOfDigits,
        (a : Int) = e) ∧
     ∀ x ∈ (digitRuns (locationFirstPiece r.rdesc)).map natOfDigits,
       s ≤ (x : Int) ∧ (x : Int) ≤ e) ∧
    (containsL (cl ",") (locationField r.rdesc) = false →
      specStartEnd r.rdesc = some (s, e)) := by
  unfold extract_position_and_strand2 at h
  dsimp only at h
  set nums := (digitRuns (locationFirstPiece r.rdesc)).map natOfDigits with hnums
  set sorted := List.insertionSort (· ≤ ·) nums with hsorted
  cases hh : sorted.head? with
  | none => rw [hh] at h; cases h
  | some u =>
    cases hl : sorted.getLast? with
    | none => rw [hh, hl] at h; cases h
    | some v =>
      rw [hh, hl] at h
      dsimp only at h
      simp only [Option.some.injEq, Prod.mk.injEq] at h
      obtain ⟨h1, h2, h3, -⟩ := h
      subst h1; subst h2; subst h3
      have hperm : sorted.Perm nums := List.perm_insertionSort _ nums
      have hsort : List.Sorted (· ≤ ·) sorted := List.sorted_insertionSort _ nums
      have humem : u ∈ nums := hperm.subset (List.mem_of_mem_head? hh)
      have hvmem : v ∈ nums := hperm.subset (mem_of_getLast?Own hl)
      refine ⟨rfl, ⟨?_, ?_, ?_⟩, ?_⟩
      · exact ⟨u, humem, rfl⟩
      · exact ⟨v, hvmem, rfl⟩
      · intro x hx
        have hxs : x ∈ sorted := hperm.mem_iff.mpr hx
        exact ⟨Int.ofNat_le.mpr (sorted_head?_min hsort hh x hxs),
          Int.ofNat_le.mpr (sorted_getLast?_max hsort hl x hxs)⟩
      · intro hnc
        unfold specStartEnd
        dsimp only
        have hfp : locationFirstPiece r.rdesc = locationField r.rdesc := by
          unfold locationFirstPiece
          rw [splitOnL_no_occ (by simp [cl]) hnc]
          rfl
        rw [← hfp, ← hnums, ← hsorted, hh, hl]

/-- C3 (counterexample to the claim as stated): on a compound
`join(...)` location the extractor takes the bounds of the FIRST range
only (end = 200), not the outer bounds over all ranges (end = 400) that
the claim asserts. -/
theorem translated_cds_compound_location_counterexample :
    extract_position_and_strand2
        ⟨cl "lcl|NC_1_prot_1",
         cl "protein X [location=join(100..200,300..400)] [gbkey=CDS]",
         cl "MA"⟩ =
      some (100, 200, 1,
        ⟨cl "lcl|NC_1_prot_1",
         cl "protein X [location=join(100..200,300..400)] [gbkey=CDS]",
         cl "MA"⟩) ∧
    specStartEnd (cl "protein X [location=join(100..200,300..400)] [gbkey=CDS]") =
      some (100, 400) ∧
    (200 : Int) ≠ 400 := by
  refine ⟨by rfl, by rfl, by decide⟩

/-- `calc_distance` (step3_s7_integrate_flanking.py lines 54-60): upstream
when the match ends before the target starts, downstream when it starts
after the target ends, else overlapping with distance 0. -/
def calc_distance (flanking_start flanking_end prot_start prot_end : Int) : Int :=
  if flanking_end < prot_start then flanking_end - prot_start
  else if flanking_start > prot_end then flanking_start - prot_end
  else 0

/-- Per-row value of `add_relative_distance`
(step3_s7_integrate_flanking_parallel.py lines 161-178): start from 0,
overwrite with the upstream mask, then overwrite with the downstream mask. -/
def relDistanceVec (flanking_start flanking_end prot_start prot_end : Int) : Int :=
  let rel : Int := 0
  let rel := if flanking_end < prot_start then flanking_end - prot_start else rel
  let rel := if flanking_start > prot_end then flanking_start - prot_end else rel
  rel

/-- C7: for well-formed intervals, both distance implementations agree,
exactly one of the three cases (upstream / downstream / overlap) applies,
and it determines the value: `fe − ps` when `fe < ps`, `fs − pe` when
`fs > pe`, and 0 when the intervals overlap. -/
theorem relative_distance_trichotomy
    (fs' fe ps pe : Int) (hf : fs' ≤ fe) (hp : ps ≤ pe) :
    (relDistanceVec fs' fe ps pe = calc_distance fs' fe ps pe) ∧
    (fe < ps ∨ fs' > pe ∨ (fe ≥ ps ∧ fs' ≤ pe)) ∧
    (fe < ps → ¬fs' > pe ∧ ¬(fe ≥ ps ∧ fs' ≤ pe) ∧
      calc_distance fs' fe ps pe = fe - ps) ∧
    (fs' > pe → ¬fe < ps ∧ ¬(fe ≥ ps ∧ fs' ≤ pe) ∧
      calc_distance fs' fe ps pe = fs' - pe) ∧
    (fe ≥ ps ∧ fs' ≤ pe → ¬fe < ps ∧ ¬fs' > pe ∧
      calc_distance fs' fe ps pe = 0) := by
  unfold relDistanceVec calc_distance
  dsimp only
  refine ⟨by split_ifs <;> omega, by omega,
    fun h1 => ⟨by omega, by omega, by split_ifs <;> omega⟩,
    fun h2 => ⟨by omega, by omega, by split_ifs <;> omega⟩,
    fun ho => ⟨by omega, by omega, by split_ifs <;> omega⟩⟩

/-- A parsed annotation table: (genome, description) rows
(`usecols=[0, 8]`). -/
abbrev Gtable := List (List Char × List Char)

/-- `load_gff_two_cols` (kit_extract_flank_seqs.py lines 42-65) as one
sequential call: check the cache under the lock; on a miss run the parse
(outside the lock — `parse` stands for the `pd.read_table` call and may
fail; the `astype('category')` compression is value-preserving and is the
identity here) and store the result under the lock.  Returns the call's
result and the cache afterwards. -/
def load_gff_two_cols (parse : List Char → Except (List Char) Gtable)
    (cache : List (List Char × Gtable)) (gff_path : List Char) :
    Except (List Char) Gtable × List (List Char × Gtable) :=
  match dictGet cache gff_path with
  | some df_cached => (Except.ok df_cached, cache)
  | none =>
    match parse gff_path with
    | Except.error e => (Except.error e, cache)
    | Except.ok df => (Except.ok df, dictInsert cache gff_path df)

/-- Reading a key just written. -/
theorem dictGet_insert_self {V : Type} (d : List (List Char × V))
    (k : List Char) (v : V) : dictGet (dictInsert d k v) k = some v := by
  induction d with
  | nil => simp [dictInsert, dictGet, List.find?]
  | cons p rest ih =>
    obtain ⟨k', v'⟩ := p
    by_cases h : (k' == k) = true
    · simp [dictInsert, h, dictGet, List.find?]
    · simp only [dictInsert, h, Bool.false_eq_true, if_false]
      simp only [dictGet, List.find?, h] at ih ⊢
      exact ih

/-- C9: if the parse of an uncached path raises, the error is surfaced to
the caller and the cache is returned unchanged — no entry is stored for
that path and every other key's entry is untouched — so a later call for
the same path with a now-succeeding parse reparses, succeeds, and caches. -/
theorem load_gff_two_cols_parse_failure
    (parse parse' : List Char → Except (List Char) Gtable)
    (cache : List (List Char × Gtable)) (p : List Char) (e : List Char)
    (tbl : Gtable)
    (hmiss : dictGet cache p = none)
    (hfail : parse p = Except.error e) :
    (load_gff_two_cols parse cache p = (Except.error e, cache)) ∧
    (∀ q, dictGet (load_gff_two_cols parse cache p).2 q = dictGet cache q) ∧
    (parse' p = Except.ok tbl →
      (load_gff_two_cols parse' cache p).1 = Except.ok tbl ∧
      dictGet (load_gff_two_cols parse' cache p).2 p = some tbl) := by
  have h1 : load_gff_two_cols parse cache p = (Except.error e, cache) := by
    unfold load_gff_two_cols
    rw [hmiss, hfail]
  refine ⟨h1, fun q => by rw [h1], fun hok => ?_⟩
  have h2 : load_gff_two_cols parse' cache p =
      (Except.ok tbl, dictInsert cache p tbl) := by
    unfold load_gff_two_cols
    rw [hmiss, hok]
  rw [h2]
  exact ⟨rfl, dictGet_insert_self cache p tbl⟩

/-- Phase of one caller of `load_gff_two_cols` in the interleaving model:
about to run the locked cache check, about to parse (outside the lock),
about to store its parsed table under the lock, or finished. -/
inductive ThPhase
  | toCheck
  | toParse
  | toStore (t : Gtable)
  | done (t : Gtable)
deriving DecidableEq, Repr

/-- Global state of two concurrent callers of `load_gff_two_cols` on the
same (uncached) path: the cache slot for that path, each caller's phase,
and the number of parses performed so far. -/
structure CacheRace where
  slot : Option Gtable
  th0 : ThPhase
  th1 : ThPhase
  parses : Nat
deriving DecidableEq, Repr

/-- One atomic step of caller `i` (`false` is the first caller).  The lock
makes the check and the store atomic steps; the parse runs between them
outside the lock and deterministically yields `t`. -/
def cacheStep (t : Gtable) (s : CacheRace) (i : Bool) : CacheRace :=
  if i then
    match s.th1, s.slot with
    | .toCheck, some v => { s with th1 := .done v }
    | .toCheck, none => { s with th1 := .toParse }
    | .toParse, _ => { s with th1 := .toStore t, parses := s.parses + 1 }
    | .toStore v, _ => { s with th1 := .done v, slot := some v }
    | .done _, _ => s
  else
    match s.th0, s.slot with
    | .toCheck, some v => { s with th0 := .done v }
    | .toCheck, none => { s with th0 := .toParse }
    | .toParse, _ => { s with th0 := .toStore t, parses := s.parses + 1 }
    | .toStore v, _ => { s with th0 := .done v, slot := some v }
    | .done _, _ => s

/-- Run a schedule (list of caller choices) from a state. -/
def cacheRun (t : Gtable) (sched : List Bool) (s : CacheRace) : CacheRace :=
  sched.foldl (cacheStep t) s

/-- Both callers about to do their first locked check on an uncached path. -/
def cacheInit : CacheRace :=
  ⟨none, .toCheck, .toCheck, 0⟩

/-- Weight of a phase: 1 once the caller is past its parse point. -/
def phaseW : ThPhase → Nat
  | .toCheck => 0
  | .toParse => 0
  | .toStore _ => 1
  | .done _ => 1

/-- Each step preserves `parses ≤ phaseW th0 + phaseW th1`. -/
theorem cacheStep_weight (t : Gtable) (s : CacheRace) (i : Bool)
    (h : s.parses ≤ phaseW s.th0 + phaseW s.th1) :
    (cacheStep t s i).parses ≤
      phaseW (cacheStep t s i).th0 + phaseW (cacheStep t s i).th1 := by
  obtain ⟨slot, th0, th1, parses⟩ := s
  cases i
  · cases th0 <;> cases slot <;> simp_all [cacheStep, phaseW] <;> omega
  · cases th1 <;> cases slot <;> simp_all [cacheStep, phaseW] <;> omega

/-- The invariant extends over any schedule. -/
theorem cacheRun_weight (t : Gtable) :
    ∀ (sched : List Bool) (s : CacheRace),
      s.parses ≤ phaseW s.th0 + phaseW s.th1 →
      (cacheRun t sched s).parses ≤
        phaseW (cacheRun t sched s).th0 + phaseW (cacheRun t sched s).th1 := by
  intro sched
  induction sched with
  | nil => intro s h; exact h
  | cons i rest ih =>
    intro s h
    exact ih (cacheStep t s i) (cacheStep_weight t s i h)

/-- C2 (amended): under concurrent first-time callers each caller parses
at most once (so at most two parses ever happen for two callers — not
necessarily one, because the parse runs outside the lock); and when the
calls do not overlap (the first caller finishes before the second starts)
exactly one parse happens, the second caller finds the cached table at its
check and returns it without reparsing, and both observe the same table. -/
theorem cache_concurrent_parse_bound (t : Gtable) (sched : List Bool) :
    (cacheRun t sched cacheInit).parses ≤ 2 ∧
    cacheRun t [false, false, false, true] cacheInit =
      ⟨some t, .done t, .done t, 1⟩ := by
  constructor
  · have h := cacheRun_weight t sched cacheInit (by simp [cacheInit, phaseW])
    have h0 : ∀ ph, phaseW ph ≤ 1 := by intro ph; cases ph <;> simp [phaseW]
    have := h0 (cacheRun t sched cacheInit).th0
    have := h0 (cacheRun t sched cacheInit).th1
    omega
  · rfl

/-- C2 (counterexample to the claim as stated): with two concurrent
callers on an uncached path, the interleaving check₀, check₁, parse₀,
store₀, parse₁, store₁ is reachable and performs TWO parses of the same
path, not exactly one — both checks run before either store because the
parse is outside the lock. -/
theorem cache_double_parse_counterexample :
    cacheRun [(cl "g1", cl "d1")] [false, true, false, false, true, true]
        cacheInit =
      ⟨some [(cl "g1", cl "d1")], .done [(cl "g1", cl "d1")],
       .done [(cl "g1", cl "d1")], 2⟩ ∧
    (2 : Nat) ≠ 1 := by
  exact ⟨rfl, by decide⟩

/-- Drop rows whose key was already seen (worker of `dropDuplicatesByKey`). -/
def dedupByKeyGo {K V : Type} [DecidableEq K] (seen : List K) :
    List (K × V) → List (K × V)
  | [] => []
  | r :: rs =>
    if r.1 ∈ seen then dedupByKeyGo seen rs
    else r :: dedupByKeyGo (r.1 :: seen) rs

/-- pandas `drop_duplicates(subset=[key], keep='first')`. -/
def dropDuplicatesByKey {K V : Type} [DecidableEq K] (rows : List (K × V)) :
    List (K × V) :=
  dedupByKeyGo [] rows

/-- `load_emapper` (step3_s7_integrate_flanking_parallel.py lines 69-90):
the column selection and renaming act inside the payload and are the
identity at this level; the step that matters is
`drop_duplicates(subset=['flanking_id'])`. -/
def load_emapper {K V : Type} [DecidableEq K] (rows : List (K × V)) :
    List (K × V) :=
  dropDuplicatesByKey rows

/-- `load_pfam_grouped` (lines 43-61):
`groupby('flanking_id', as_index=False).agg(list)` — one row per distinct
key (pandas sorts group keys), each carrying the list of that key's
payloads in row order. -/
def load_pfam_grouped {K V : Type} [DecidableEq K] [LinearOrder K]
    (rows : List (K × V)) : List (K × List V) :=
  (List.insertionSort (· ≤ ·) (dedupFirst (rows.map (·.1)))).map
    fun k => (k, (rows.filter fun r => decide (r.1 = k)).map (·.2))

/-- `pd.merge(..., on=key, how='left')`: every left row in order paired
with each matching right row; a left row with no match keeps one row with
a null right side. -/
def leftMerge {L R K : Type} [DecidableEq K] (left : List L) (right : List R)
    (kl : L → K) (kr : R → K) : List (L × Option R) :=
  left.flatMap fun l =>
    let ms := right.filter fun r => decide (kr r = kl l)
    if ms.isEmpty then [(l, none)] else ms.map fun r => (l, some r)

/-- The non-parallel joiner (step3_s7_integrate_flanking.py lines 63-71)
left-merges the renamed external tables directly — it has no dedup step. -/
def plainJoin {K V1 V2 V3 : Type} [DecidableEq K] (expanded : List (K × V1))
    (em : List (K × V2)) (pf : List (K × V3)) :
    List (((K × V1) × Option (K × V2)) × Option (K × V3)) :=
  leftMerge (leftMerge expanded em (·.1) (·.1)) pf (fun p => p.1.1) (·.1)

/-- Filtering by one key keeps at most one row when the key column has no
duplicates. -/
theorem filter_key_len_le_one {K R : Type} [DecidableEq K]
    (kr : R → K) (k : K) :
    ∀ right : List R, (right.map kr).Nodup →
      (right.filter fun r => decide (kr r = k)).length ≤ 1 := by
  intro right
  induction right with
  | nil => intro _; simp
  | cons r rs ih =>
    intro h
    simp only [List.map_cons, List.nodup_cons] at h
    obtain ⟨hnm, hnd⟩ := h
    rw [List.filter_cons]
    by_cases hk : kr r = k
    · have hz : (rs.filter fun r' => decide (kr r' = k)) = [] := by
        apply List.filter_eq_nil.mpr
        intro a ha
        simp only [decide_eq_true_eq]
        intro hka
        exact hnm (List.mem_map.mpr ⟨a, ha, by rw [hka, ← hk]⟩)
      simp [hk, hz]
    · simp only [hk, decide_False, Bool.false_eq_true, if_false]
      exact ih hnd

/-- A left merge against a right table with duplicate-free keys has
exactly one output row per left row. -/
theorem leftMerge_length {L R K : Type} [DecidableEq K]
    (left : List L) (right : List R) (kl : L → K) (kr : R → K)
    (h : (right.map kr).Nodup) :
    (leftMerge left right kl kr).length = left.length := by
  induction left with
  | nil => rfl
  | cons l ls ih =>
    unfold leftMerge at ih ⊢
    rw [List.flatMap_cons, List.length_append, ih]
    have hone : (let ms := right.filter fun r => decide (kr r = kl l)
        if ms.isEmpty then [(l, (none : Option R))]
        else ms.map fun r => (l, some r)).length = 1 := by
      dsimp only
      by_cases he : (right.filter fun r => decide (kr r = kl l)).isEmpty
      · simp [he]
      · have hle := filter_key_len_le_one kr (kl l) right h
        have hne : (right.filter fun r => decide (kr r = kl l)).length ≠ 0 := by
          intro hc
          exact he (List.isEmpty_iff.mpr (List.length_eq_zero.mp hc))
        simp only [he, Bool.false_eq_true, if_false, List.length_map]
        omega
    rw [hone, List.length_cons]
    omega

/-- The keys kept by `dedupByKeyGo` are duplicate-free and avoid `seen`. -/
theorem dedupByKeyGo_keys_nodup {K V : Type} [DecidableEq K] :
    ∀ (rows : List (K × V)) (seen : List K),
      ((dedupByKeyGo seen rows).map (·.1)).Nodup ∧
      ∀ k ∈ (dedupByKeyGo seen rows).map (·.1), k ∉ seen := by
  intro rows
  induction rows with
  | nil => intro seen; simp [dedupByKeyGo]
  | cons r rs ih =>
    intro seen
    unfold dedupByKeyGo
    by_cases hm : r.1 ∈ seen
    · simpa [hm] using ih seen
    · obtain ⟨hnd, hdisj⟩ := ih (r.1 :: seen)
      simp only [hm, if_false]
      constructor
      · simp only [List.map_cons, List.nodup_cons]
        exact ⟨fun hc => (hdisj _ hc) (List.mem_cons_self _ _), hnd⟩
      · intro k hk
        simp only [List.map_cons, List.mem_cons] at hk
        rcases hk with hk | hk
        · subst hk; exact hm
        · exact fun hc => (hdisj k hk) (List.mem_cons_of_mem _ hc)

/-- `dedupFirstGo` yields duplicate-free output avoiding `seen`. -/
theorem dedupFirstGo_nodup {α : Type} [DecidableEq α] :
    ∀ (l : List α) (seen : List α),
      (dedupFirstGo seen l).Nodup ∧ ∀ a ∈ dedupFirstGo seen l, a ∉ seen := by
  intro l
  induction l with
  | nil => intro seen; simp [dedupFirstGo]
  | cons a as ih =>
    intro seen
    unfold dedupFirstGo
    by_cases hm : a ∈ seen
    · simpa [hm] using ih seen
    · obtain ⟨hnd, hdisj⟩ := ih (a :: seen)
      simp only [hm, if_false]
      constructor
      · exact List.nodup_cons.mpr ⟨fun hc => (hdisj _ hc) (List.mem_cons_self _ _), hnd⟩
      · intro k hk
        rcases List.mem_cons.mp hk with hk | hk
        · subst hk; exact hm
        · exact fun hc => (hdisj k hk) (List.mem_cons_of_mem _ hc)

/-- The deduplicated eggNOG table has duplicate-free keys. -/
theorem load_emapper_keys_nodup {K V : Type} [DecidableEq K]
    (rows : List (K × V)) : ((load_emapper rows).map (·.1)).Nodup :=
  (dedupByKeyGo_keys_nodup rows []).1

/-- The grouped PFAM table has duplicate-free keys. -/
theorem load_pfam_grouped_keys_nodup {K V : Type} [DecidableEq K]
    [LinearOrder K] (rows : List (K × V)) :
    ((load_pfam_grouped rows).map (·.1)).Nodup := by
  unfold load_pfam_grouped
  rw [List.map_map]
  have heq : ((·.1 :
      (K × List V) → K) ∘ fun k => (k, (rows.filter fun r => decide (r.1 = k)).map (·.2))) =
      id := by
    funext k
    rfl
  rw [heq, List.map_id]
  unfold dedupFirst
  exact ((List.perm_insertionSort _ _).nodup_iff).mpr
    (dedupFirstGo_nodup _ []).1

/-- C4 (amended): the parallel joiner collapses each external table to one
row per record id before merging — the eggNOG table by keep-first
deduplication, the PFAM table by group-and-aggregate-to-list — so the left
joins preserve cardinality: exactly one output row per input match,
however many duplicate rows the raw external tables contain. -/
theorem join_cardinality_dedup_before_merge {K V1 V2 V3 : Type}
    [DecidableEq K] [LinearOrder K]
    (expanded : List (K × V1)) (em : List (K × V2)) (pf : List (K × V3)) :
    (leftMerge (leftMerge expanded (load_emapper em) (·.1) (·.1))
        (load_pfam_grouped pf) (fun p => p.1.1) (·.1)).length =
      expanded.length := by
  rw [leftMerge_length _ _ _ _ (load_pfam_grouped_keys_nodup pf),
    leftMerge_length _ _ _ _ (load_emapper_keys_nodup em)]

/-- C4 (counterexample to the claim as stated): the non-parallel joiner
does not deduplicate; with one match row and an ortholog table holding two
rows for the same id, its output has 2 rows, not 1. -/
theorem plainJoin_duplicate_counterexample :
    (plainJoin [((1 : Nat), (0 : Nat))] [((1 : Nat), (10 : Nat)), (1, 20)]
        ([] : List (Nat × Nat))).length = 2 ∧ (2 : Nat) ≠ 1 := by
  exact ⟨rfl, by decide⟩

/-- Python values that can sit in a `flanking_segments` cell or inside a
parsed literal: NaN/None, ints, strings, lists, tuples. -/
inductive PyVal
  | nan
  | int (n : Int)
  | str (s : List Char)
  | list (xs : List PyVal)
  | tuple (xs : List PyVal)

/-- Python truthiness (`or []` uses it): NaN/None, 0, and empty
strings/lists/tuples are falsy. -/
def pyFalsy : PyVal → Bool
  | .nan => true
  | .int n => n == 0
  | .str s => s.isEmpty
  | .list xs => xs.isEmpty
  | .tuple xs => xs.isEmpty

/-- `for item in segs`: lists and tuples iterate their items, strings
their characters; anything else raises `TypeError`. -/
def pyIterate : PyVal → Except Unit (List PyVal)
  | .list xs => Except.ok xs
  | .tuple xs => Except.ok xs
  | .str s => Except.ok (s.map fun c => .str [c])
  | _ => Except.error ()

/-- `isinstance(item, (list, tuple))` and its items. -/
def pySeqItems : PyVal → Option (List PyVal)
  | .list xs => some xs
  | .tuple xs => some xs
  | _ => none

/-- Python `int(x)`: ints pass through, numeric strings parse, everything
else raises. -/
def pyToInt : PyVal → Except Unit Int
  | .int n => Except.ok n
  | .str s =>
    match pyIntOfChars s with
    | some n => Except.ok n
    | none => Except.error ()
  | _ => Except.error ()

/-- `_safe_parse_segments` (step3_s7_integrate_flanking_parallel.py lines
97-110): a list passes through; NaN yields `[]`; a string is stripped,
empty yields `[]`, otherwise `ast.literal_eval` (modelled by the supplied
`litEval`, whose failure yields `[]`); anything else yields `[]`. -/
def safeParseSegments (litEval : List Char → Except Unit PyVal) (x : PyVal) :
    PyVal :=
  match x with
  | .list xs => .list xs
  | .nan => .list []
  | .str s =>
    let s' := stripL s
    if s'.isEmpty then .list []
    else
      match litEval s' with
      | Except.ok v => v
      | Except.error _ => .list []
  | _ => .list []

/-- Per-item step of `_expand_rows` (lines 118-126): items that are not
lists/tuples of length ≥ 4 are skipped (`Except.ok none`); otherwise
fields 1..3 go through `int(...)`, whose failure raises. -/
def convSegItem (item : PyVal) : Except Unit (Option (PyVal × Int × Int × Int)) :=
  match pySeqItems item with
  | none => Except.ok none
  | some xs =>
    if xs.length < 4 then Except.ok none
    else
      match pyToInt (xs.getD 1 .nan), pyToInt (xs.getD 2 .nan),
          pyToInt (xs.getD 3 .nan) with
      | Except.ok a, Except.ok b, Except.ok c =>
        Except.ok (some (xs.getD 0 .nan, a, b, c))
      | _, _, _ => Except.error ()

/-- Convert the items of one cell in order, skipping skipped items and
propagating a raise. -/
def convSegItems : List PyVal → Except Unit (List (PyVal × Int × Int × Int))
  | [] => Except.ok []
  | it :: rest =>
    match convSegItem it with
    | Except.error e => Except.error e
    | Except.ok none => convSegItems rest
    | Except.ok (some row) =>
      match convSegItems rest with
      | Except.error e => Except.error e
      | Except.ok rows => Except.ok (row :: rows)

/-- `segs = row.get('flanking_segments', []) or []` followed by the item
loop of `_expand_rows` for one row. -/
def expandRowSegs (segs0 : PyVal) : Except Unit (List (PyVal × Int × Int × Int)) :=
  let segs := if pyFalsy segs0 then PyVal.list [] else segs0
  match pyIterate segs with
  | Except.error e => Except.error e
  | Except.ok items => convSegItems items

/-- `_expand_rows` (lines 113-127) over all rows: each emitted row keeps
its source row's payload (the `keep_cols` projection) plus the four
well-typed flanking fields. -/
def _expand_rows {A : Type} : List (A × PyVal) →
    Except Unit (List (A × (PyVal × Int × Int × Int)))
  | [] => Except.ok []
  | (a, segs) :: rest =>
    match expandRowSegs segs with
    | Except.error e => Except.error e
    | Except.ok rs =>
      match _expand_rows rest with
      | Except.error e => Except.error e
      | Except.ok out => Except.ok (rs.map (fun r => (a, r)) ++ out)

/-- `expand_step3_parallel` (lines 130-154), single-chunk path: apply
`_safe_parse_segments` to every cell, then `_expand_rows`. -/
def expandCells {A : Type} (litEval : List Char → Except Unit PyVal)
    (rows : List (A × PyVal)) :
    Except Unit (List (A × (PyVal × Int × Int × Int))) :=
  _expand_rows (rows.map fun r => (r.1, safeParseSegments litEval r.2))

/-- A literal parser that accepts nothing (`ast.literal_eval` modelled at
its most conservative; the concrete statements below do not consult it). -/
def litEvalReject : List Char → Except Unit PyVal :=
  fun _ => Except.error ()

/-- One cell passes cleanly: after parse and the falsy guard it is
iterable and every item converts without raising. -/
def cellOk (litEval : List Char → Except Unit PyVal) (v : PyVal) : Bool :=
  let segs0 := safeParseSegments litEval v
  let segs := if pyFalsy segs0 then PyVal.list [] else segs0
  match pyIterate segs with
  | Except.error _ => false
  | Except.ok items => items.all fun it => (convSegItem it).isOk

/-- When every item of a cell is skipped, conversion yields no rows (and
does not raise). -/
theorem convSegItems_all_skip :
    ∀ items : List PyVal, (∀ it ∈ items, convSegItem it = Except.ok none) →
      convSegItems items = Except.ok [] := by
  intro items
  induction items with
  | nil => intro _; rfl
  | cons it rest ih =>
    intro h
    unfold convSegItems
    rw [h it (List.mem_cons_self _ _)]
    exact ih fun x hx => h x (List.mem_cons_of_mem _ hx)

/-- When every item converts without raising, the whole conversion
succeeds. -/
theorem convSegItems_all_isOk :
    ∀ items : List PyVal, (∀ it ∈ items, (convSegItem it).isOk = true) →
      ∃ out, convSegItems items = Except.ok out := by
  intro items
  induction items with
  | nil => intro _; exact ⟨[], rfl⟩
  | cons it rest ih =>
    intro h
    have h1 := h it (List.mem_cons_self _ _)
    have hrest := ih fun x hx => h x (List.mem_cons_of_mem _ hx)
    obtain ⟨out, hout⟩ := hrest
    cases hc : convSegItem it with
    | error e => rw [hc] at h1; simp [Except.isOk, Except.toBool] at h1
    | ok v =>
      cases v with
      | none =>
        unfold convSegItems
        rw [hc, hout]
        exact ⟨out, rfl⟩
      | some row =>
        unfold convSegItems
        rw [hc, hout]
        exact ⟨row :: out, rfl⟩

/-- A clean cell's row expansion succeeds. -/
theorem expandRowSegs_of_cellOk (lv : List Char → Except Unit PyVal)
    (v : PyVal) (h : cellOk lv v = true) :
    ∃ rs, expandRowSegs (safeParseSegments lv v) = Except.ok rs := by
  unfold cellOk at h
  unfold expandRowSegs
  dsimp only at h ⊢
  cases hit : pyIterate (if pyFalsy (safeParseSegments lv v) then PyVal.list []
      else safeParseSegments lv v) with
  | error e => rw [hit] at h; simp at h
  | ok items =>
    rw [hit] at h
    dsimp only at h ⊢
    exact convSegItems_all_isOk items fun it hx => List.all_eq_true.mp h it hx

/-- C10 (amended): the parse half never raises — NaN cells, empty or
unparseable strings all yield zero rows, and parsed items that are not
lists/tuples of length ≥ 4 are skipped — and whenever every item of every
cell converts at positions 1..3, the expansion succeeds with well-typed
rows; but the conversion half CAN raise (see the counterexample) when an
item of length ≥ 4 carries a non-integer-convertible field. -/
theorem expand_rows_safety_amended {A : Type}
    (lv : List Char → Except Unit PyVal) :
    (∀ (a : A) (s : List Char),
      stripL s = [] ∨ lv (stripL s) = Except.error () →
      expandCells lv [(a, PyVal.str s)] = Except.ok []) ∧
    (∀ a : A, expandCells lv [(a, PyVal.nan)] = Except.ok []) ∧
    (∀ (a : A) (items : List PyVal),
      (∀ it ∈ items, convSegItem it = Except.ok none) →
      expandCells lv [(a, PyVal.list items)] = Except.ok []) ∧
    (∀ rows : List (A × PyVal),
      (∀ r ∈ rows, cellOk lv r.2 = true) →
      ∃ out, expandCells lv rows = Except.ok out) := by
  refine ⟨?_, ?_, ?_, ?_⟩
  · intro a s h
    have hsp : safeParseSegments lv (PyVal.str s) = PyVal.list [] := by
      unfold safeParseSegments
      rcases h with h1 | h2
      · simp [h1]
      · by_cases he : (stripL s).isEmpty
        · simp [he]
        · simp [he, h2]
    unfold expandCells
    simp only [List.map_cons, List.map_nil, hsp]
    rfl
  · intro a
    rfl
  · intro a items h
    unfold expandCells
    simp only [List.map_cons, List.map_nil]
    have hrs : expandRowSegs (safeParseSegments lv (PyVal.list items)) =
        Except.ok [] := by
      unfold expandRowSegs safeParseSegments
      dsimp only
      by_cases he : pyFalsy (PyVal.list items) = true
      · rw [if_pos he]; rfl
      · rw [if_neg he]
        exact convSegItems_all_skip items h
    unfold _expand_rows
    rw [hrs]
    rfl
  · intro rows
    induction rows with
    | nil => intro _; exact ⟨[], rfl⟩
    | cons r rest ih =>
      intro h
      obtain ⟨rs, hrs⟩ :=
        expandRowSegs_of_cellOk lv r.2 (h r (List.mem_cons_self _ _))
      obtain ⟨out, hout⟩ := ih fun x hx => h x (List.mem_cons_of_mem _ hx)
      unfold expandCells at hout ⊢
      obtain ⟨a, v⟩ := r
      simp only [List.map_cons]
      unfold _expand_rows
      rw [hrs, hout]
      exact ⟨rs.map (fun x => (a, x)) ++ out, rfl⟩

/-- C10 (counterexample to the claim as stated): a cell holding one
4-field item whose coordinate fields are not integer-convertible makes the
expansion raise (`int('b')` raises `ValueError`), so the expansion step is
not raise-free for every cell value. -/
theorem expand_rows_bad_item_raises :
    expandCells litEvalReject
        [((0 : Nat), PyVal.list [PyVal.tuple
          [PyVal.str (cl "a"), PyVal.str (cl "b"), PyVal.str (cl "c"),
           PyVal.str (cl "d")]])] =
      Except.error () := by
  rfl

/-- Scenario-B record: a complemented single-range location. -/
def recScenarioB : SeqRec :=
  ⟨cl "lcl|NC_2_prot_7", cl "hypothetical [location=complement(500..700)]",
   cl "MK"⟩

/-- Witness for the C3 amended theorem at Scenario B
(`[location=complement(500..700)]` → start 500, end 700, strand −1). -/
theorem extract_position_and_strand2_first_piece_bounds_witness :
    (-1 : Int) =
      (if containsL (cl "complement") recScenarioB.rdesc then -1 else 1) :=
  (extract_position_and_strand2_first_piece_bounds recScenarioB recScenarioB
    500 700 (-1) (by rfl)).1

/-- Archive world for the C5 witness: one FASTA at `/r/f1.faa` holding a
well-formed and a malformed genome-scoped Prodigal record. -/
def fsW : FS :=
  ⟨fun p => p == cl "/r/f1.faa",
   fun p => if p == cl "/r/f1.faa" then
       [⟨cl "g_1", cl "g_1 # 100 # 250 # 1 # ID=1", cl "MA"⟩,
        ⟨cl "g_2", cl "broken header", cl "MV"⟩]
     else [],
   fun _ => []⟩

/-- Row for the C5 witness. -/
def rowW : Row :=
  ⟨cl "g_9", cl "f1.domtblout", cl "phagescope", 100, 200⟩

/-- Source map for the C5 witness. -/
def rootsW : List (List Char × List Char) :=
  [(cl "phagescope", cl "/r")]

/-- Witness for the C5 amended theorem: the malformed record makes the
whole row task report an error value. -/
theorem prodigal_malformed_header_fails_whole_row_witness :
    ∃ m, _process_single_row fsW rowW rootsW 10000 10000 = cl "ERROR:" ++ m :=
  (prodigal_malformed_header_fails_whole_row fsW rowW rootsW 10000 10000
    (cl "/r") (cl "/r/f1.faa") (by rfl) (by rfl) (by decide) (by decide)
    (by decide)).1

/-- Witness for C7 at a concrete upstream configuration. -/
theorem relative_distance_trichotomy_witness :
    relDistanceVec 100 250 300 400 = calc_distance 100 250 300 400 :=
  (relative_distance_trichotomy 100 250 300 400 (by decide) (by decide)).1

/-- Empty world for the C8 witness: no path exists. -/
def fsE : FS :=
  ⟨fun _ => false, fun _ => [], fun _ => []⟩

/-- Row and source map for the C8 witness. -/
def rowE : Row :=
  ⟨cl "t9", cl "f9.domtblout", cl "CRBC", 5, 15⟩

/-- Source map for the C8 witness. -/
def rootsE : List (List Char × List Char) :=
  [(cl "CRBC", cl "/data/crbc")]

/-- Witness for the C8 amended theorem: a known source whose archive is
missing records `'[]'` at its row index. -/
theorem process_dataframe_missing_artifact_rows_witness :
    (process_dataframe fsE [rowE] rootsE 1 1).1.get? 0 = some (cl "[]") :=
  (process_dataframe_missing_artifact_rows fsE [rowE] rootsE 1 1).2.2.2.1
    0 rowE (cl "/data/crbc") (by rfl) (by rfl) (by rfl)

/-- A parse that always fails (models a raising `pd.read_table`). -/
def parseBoom : List Char → Except (List Char) Gtable :=
  fun _ => Except.error (cl "boom")

/-- A parse that always succeeds with a one-row table. -/
def parseOkT : List Char → Except (List Char) Gtable :=
  fun _ => Except.ok [(cl "g", cl "d")]

/-- Witness for C9: a failing parse on an empty cache surfaces the error
and leaves the cache empty. -/
theorem load_gff_two_cols_parse_failure_witness :
    load_gff_two_cols parseBoom [] (cl "p.gff") =
      (Except.error (cl "boom"), []) :=
  (load_gff_two_cols_parse_failure parseBoom parseOkT [] (cl "p.gff")
    (cl "boom") [(cl "g", cl "d")] (by rfl) (by rfl)).1

/-- Witness for the C10 amended theorem: an unparseable string cell yields
zero rows without raising. -/
theorem expand_rows_safety_amended_witness :
    expandCells litEvalReject [((0 : Nat), PyVal.str (cl "oops"))] =
      Except.ok [] :=
  (expand_rows_safety_amended litEvalReject).1 0 (cl "oops") (Or.inr (by rfl))
